import Mathlib

set_option maxHeartbeats 1000000

/-!
Shallow embedding of the offline-capable data store core of the SDK:
the in-memory offline repository, the sync-manager push and pull
pipelines, query pagination and the authenticated request layer.
Definitions are translated from the JavaScript sources; parts of the
repository that are not among the sources are modelled from the spec
and marked as such in their doc comments.
-/

/-- JavaScript strings are modelled as lists of characters. -/
abbrev Str : Type := List Char

/-- Coercion of a Lean string literal into the model string type. -/
def str (s : String) : Str := s.data

/-- Error kinds surfaced by the SDK (the errors module). -/
inductive Err where
  | kinveyError
  | syncError
  | notFoundError
  | invalidCachedQuery
  | invalidCredentialsError
  | serverError
  | otherError (code : Nat)
deriving DecidableEq, Repr

/-- An entity: a JSON object with a string id field; all remaining
fields are opaque to the claims settled here and are collapsed into a
single payload. -/
structure Entity where
  eid : Str
  body : Nat
deriving DecidableEq, Repr

/-- Modelled from the spec: the query class itself is not among the
sources. A query holds a filter, modelled as a decidable predicate on
entities, an optional skip and an optional limit; sort and field
projection are not needed by the claims settled here. -/
structure QueryM where
  filterPred : Entity → Bool := fun _ => true
  skip : Option Nat := none
  limit : Option Nat := none

/-- Modelled from the spec: a query has a skip when its skip field is
set. -/
def QueryM.hasSkip (q : QueryM) : Bool := q.skip.isSome

/-- Modelled from the spec: a query has a limit when its limit field is
set. -/
def QueryM.hasLimit (q : QueryM) : Bool := q.limit.isSome

namespace InmemoryOfflineRepository

/-- One step of building a JavaScript object keyed by entity id:
assigning to an existing key replaces the value in place, a new key is
appended (lodash keyBy iterates its input performing object
assignment). -/
def keyByInsert (m : List (Str × Entity)) (e : Entity) : List (Str × Entity) :=
  if m.any (fun p => p.1 = e.eid) then
    m.map (fun p => if p.1 = e.eid then (p.1, e) else p)
  else
    m ++ [(e.eid, e)]

/-- lodash keyBy(entities, the id field), as an insertion-ordered
association list. -/
def keyById (es : List Entity) : List (Str × Entity) :=
  es.foldl keyByInsert []

/-- The in-place replacement loop of InmemoryOfflineRepository._update:
walk the stored entities, replacing each one whose id is a key of the
pending-update map while consuming that key; return the rewritten
store together with the unconsumed part of the map. -/
def updateLoop : List Entity → List (Str × Entity) → List Entity × List (Str × Entity)
  | [], m => ([], m)
  | e :: rest, m =>
    match m.find? (fun p => p.1 = e.eid) with
    | some p =>
      let r := updateLoop rest (m.filter (fun q => q.1 ≠ e.eid))
      (p.2 :: r.1, r.2)
    | none =>
      let r := updateLoop rest m
      (e :: r.1, r.2)

/-- InmemoryOfflineRepository._update: upsert by id, replacing stored
entities in place and appending the entities whose ids matched no
stored entity. -/
def _update (st : List Entity) (es : List Entity) : List Entity :=
  let r := updateLoop st (keyById es)
  r.1 ++ r.2.map (fun p => p.2)

/-- InmemoryOfflineRepository.update: run the upsert against the
stored entities and resolve with the input entities unchanged. -/
def update (st : List Entity) (es : List Entity) : List Entity × List Entity :=
  (_update st es, es)

/-- Modelled from the spec: in-memory query evaluation over a dataset
(the evaluator module is not among the sources): filter, then skip,
then limit; the claims settled here use it only with queries that have
neither a skip nor a limit. -/
def applyQueryToDataset (es : List Entity) (q : QueryM) : List Entity :=
  let filtered := es.filter q.filterPred
  let skipped := filtered.drop (q.skip.getD 0)
  match q.limit with
  | some l => skipped.take l
  | none => skipped

/-- InmemoryOfflineRepository._delete composed with
_deleteMatchingEntitiesFromPersistance: every stored entity whose id
equals the id of a matched entity is removed; resolves with the
matched count. -/
def _delete (st : List Entity) (q : Option QueryM) : List Entity × Nat :=
  let matching := match q with
    | some q0 => applyQueryToDataset st q0
    | none => st
  let remaining := st.filter (fun e => !(matching.any (fun x => x.eid = e.eid)))
  (remaining, matching.length)

/-- InmemoryOfflineRepository._deleteById: splice out the first stored
entity carrying the id, when present. -/
def removeFirstById : List Entity → Str → List Entity
  | [], _ => []
  | e :: rest, id0 => if e.eid = id0 then rest else e :: removeFirstById rest id0

/-- Well-known key of the active user record (core utils). -/
def activeUserKey : Str := str "active_user"

/-- InmemoryOfflineRepository._formCollectionKey: the app key, a dot,
then the collection name. -/
def _formCollectionKey (appKey c : Str) : Str := appKey ++ str "." ++ c

/-- InmemoryOfflineRepository._keyBelongsToApp: the source checks that
indexOf of the bare app key is zero, a prefix match without the dot. -/
def _keyBelongsToApp (appKey k : Str) : Bool := appKey.isPrefixOf k

/-- InmemoryOfflineRepository._getCollectionFromKey: drop the length of
the app key followed by a dot. -/
def _getCollectionFromKey (appKey k : Str) : Str :=
  k.drop (appKey ++ str ".").length

/-- InmemoryOfflineRepository._getAllCollections: the collection names
extracted from every persisted key that belongs to the app. -/
def _getAllCollections (appKey : Str) (keys : List Str) : List Str :=
  (keys.filter (fun k => _keyBelongsToApp appKey k)).map
    (fun k => _getCollectionFromKey appKey k)

/-- InmemoryOfflineRepository._deleteAll: delete the collection's key
from the persister unless it is the active-user key. -/
def _deleteAll (appKey : Str) (keys : List Str) (c : Str) : List Str :=
  if _formCollectionKey appKey c = _formCollectionKey appKey activeUserKey then keys
  else keys.filter (fun k => k ≠ _formCollectionKey appKey c)

/-- InmemoryOfflineRepository.clear with no collection argument:
enumerate this app's collections from the persisted keys, then delete
each enumerated collection's key. -/
def clearAll (appKey : Str) (keys : List Str) : List Str :=
  (_getAllCollections appKey keys).foldl (_deleteAll appKey) keys

/-- The deletion condition a single _deleteAll call applies to a key. -/
def killsKey (appKey c k : Str) : Bool :=
  decide (¬(_formCollectionKey appKey c = _formCollectionKey appKey activeUserKey))
    && decide (k = _formCollectionKey appKey c)

end InmemoryOfflineRepository

namespace CoreUtils

/-- splitQueryIntoPages from the core utils module: the ceiling of
totalCount over pageSize many page queries, the i-th starting at the
original skip plus i pages, limited to the remaining count but at most
one page. -/
def splitQueryIntoPages (q : QueryM) (pageSize totalCount : Nat) : List QueryM :=
  (List.range ((totalCount + pageSize - 1) / pageSize)).map (fun i =>
    { q with skip := some (q.skip.getD 0 + i * pageSize),
             limit := some (min (totalCount - i * pageSize) pageSize) })

end CoreUtils

/-- Sync operations recorded for an entity. -/
inductive SyncOp where
  | create
  | update
  | delete
deriving DecidableEq, Repr

/-- A SyncItem: a pending local mutation intent for one entity of one
collection. -/
structure SyncItem where
  entityId : Str
  collection : Str
  op : SyncOp
deriving DecidableEq, Repr

/-- A per-item push result record: the entity id, the operation, an
optional entity and an optional error. -/
structure PushOpResult where
  rid : Str
  operation : SyncOp
  entity : Option Entity
  error : Option Err
deriving DecidableEq, Repr

/-- The backend's responses to the three push verbs, supplied as an
oracle so that the theorems cover every server behavior. -/
structure NetworkBehavior where
  createResult : Entity → Except Err Entity
  updateResult : Entity → Except Err Entity
  deleteResult : Str → Except Err Unit

/-- An oracle whose every network call fails with the server error. -/
def noNetwork : NetworkBehavior :=
  { createResult := fun _ => .error Err.serverError,
    updateResult := fun _ => .error Err.serverError,
    deleteResult := fun _ => .error Err.serverError }

/-- An oracle whose every network call succeeds, echoing the pushed
entity. -/
def echoNetwork : NetworkBehavior :=
  { createResult := fun e => .ok e,
    updateResult := fun e => .ok e,
    deleteResult := fun _ => .ok () }

/-- The sync-relevant state of one collection: the offline entities
and the pending sync items. -/
structure PushState where
  offline : List Entity
  syncItems : List SyncItem
deriving DecidableEq, Repr

namespace SyncManager

/-- Modelled from the spec: SyncStateManager.removeSyncItemForEntityId
(the sync-state-manager module is not among the sources) removes the
pending item of that entity id in that collection. -/
def removeSyncItemForEntityId (items : List SyncItem) (collection entityId : Str) :
    List SyncItem :=
  items.filter (fun i =>
    !(decide (i.collection = collection) && decide (i.entityId = entityId)))

/-- SyncManager._getPushOpResult: an id and an operation, with no
entity and no error attached yet. -/
def _getPushOpResult (entityId : Str) (operation : SyncOp) : PushOpResult :=
  { rid := entityId, operation := operation, entity := none, error := none }

/-- SyncManager._pushCreate: post the entity; on success replace the
offline entity under the local id with the returned one
(_replaceOfflineEntityWithNetwork deletes by id then appends), on
failure attach the error to the result and leave the store alone. -/
def _pushCreate (net : NetworkBehavior) (offline : List Entity) (e : Entity) :
    List Entity × PushOpResult :=
  match net.createResult e with
  | .ok created =>
    (InmemoryOfflineRepository.removeFirstById offline e.eid ++ [created],
      { _getPushOpResult e.eid SyncOp.create with entity := some created })
  | .error err =>
    (offline, { _getPushOpResult e.eid SyncOp.create with error := some err })

/-- SyncManager._pushUpdate: put the entity; on success upsert the
returned entity into the offline store, on failure attach the original
entity and the error to the result. -/
def _pushUpdate (net : NetworkBehavior) (offline : List Entity) (e : Entity) :
    List Entity × PushOpResult :=
  match net.updateResult e with
  | .ok updated =>
    (InmemoryOfflineRepository._update offline [updated],
      { _getPushOpResult e.eid SyncOp.update with entity := some updated })
  | .error err =>
    (offline,
      { _getPushOpResult e.eid SyncOp.update with entity := some e, error := some err })

/-- SyncManager._pushDelete: delete by id on the network; on failure
attach the error to the result. -/
def _pushDelete (net : NetworkBehavior) (offline : List Entity) (entityId : Str) :
    List Entity × PushOpResult :=
  match net.deleteResult entityId with
  | .ok _ => (offline, _getPushOpResult entityId SyncOp.delete)
  | .error err =>
    (offline, { _getPushOpResult entityId SyncOp.delete with error := some err })

/-- SyncManager._pushItem: read the offline entity by id; when it is
absent for a non-delete operation remove the item's sync item and
reject with the not-found error, otherwise dispatch on the operation
as SyncManager._handlePushOp does. -/
def _pushItem (net : NetworkBehavior) (st : PushState) (item : SyncItem) :
    PushState × Except Err PushOpResult :=
  match st.offline.find? (fun e => e.eid = item.entityId) with
  | some e =>
    match item.op with
    | SyncOp.create =>
      let r := _pushCreate net st.offline e
      ({ st with offline := r.1 }, .ok r.2)
    | SyncOp.update =>
      let r := _pushUpdate net st.offline e
      ({ st with offline := r.1 }, .ok r.2)
    | SyncOp.delete =>
      let r := _pushDelete net st.offline item.entityId
      ({ st with offline := r.1 }, .ok r.2)
  | none =>
    match item.op with
    | SyncOp.delete =>
      let r := _pushDelete net st.offline item.entityId
      ({ st with offline := r.1 }, .ok r.2)
    | _ =>
      ({ st with syncItems :=
          removeSyncItemForEntityId st.syncItems item.collection item.entityId },
        .error Err.notFoundError)

/-- SyncManager._processSyncItem: on a result without an error remove
the item's sync item; on a result carrying an error keep the sync
item; catch a rejection into a fresh result record carrying the
error. This function never rejects. -/
def _processSyncItem (net : NetworkBehavior) (st : PushState) (item : SyncItem) :
    PushState × PushOpResult :=
  let r := _pushItem net st item
  match r.2 with
  | .ok result =>
    if result.error.isSome then (r.1, result)
    else
      ({ r.1 with syncItems :=
          removeSyncItemForEntityId r.1.syncItems item.collection item.entityId },
        result)
  | .error err =>
    (r.1, { _getPushOpResult item.entityId item.op with error := some err })

/-- SyncManager._processSyncItems: process the items and collect one
result per item; the per-item concurrency bound affects only
scheduling, so the model is sequential. -/
def _processSyncItems (net : NetworkBehavior) (st : PushState) (items : List SyncItem) :
    PushState × List PushOpResult :=
  items.foldl (fun acc item =>
    let r := _processSyncItem net acc.1 item
    (r.1, acc.2 ++ [r.2])) (st, [])

/-- The key under which a JavaScript object access stores a value: an
undefined argument is coerced to the literal string undefined. -/
def jsKey : Option Str → Str
  | some c => c
  | none => str "undefined"

/-- SyncManager._pushIsInProgress over the module-level push-tracking
object, keyed by collection. -/
def _pushIsInProgress (tracking : List Str) (collection : Str) : Bool :=
  decide (collection ∈ tracking)

/-- SyncManager._markPushStart: set the collection's marker when it is
not already set. -/
def _markPushStart (tracking : List Str) (collection : Str) : List Str :=
  if _pushIsInProgress tracking collection then tracking
  else collection :: tracking

/-- SyncManager._markPushEnd: delete the marker under the given key
when it is set; the failure path of push calls this with no argument,
so the deleted key is the literal string undefined. -/
def _markPushEnd (tracking : List Str) (collection : Option Str) : List Str :=
  if _pushIsInProgress tracking (jsKey collection) then
    tracking.filter (fun c => c ≠ jsKey collection)
  else tracking

/-- SyncManager.push: reject on an invalid collection name; reject
with the sync error when a push for this collection is in flight;
otherwise mark the push started, fetch the sync items (an outcome
parameter covering the optional offline query read and the sync-state
read), process them, and mark the push ended: with the collection on
the success path, with no argument on the failure path, exactly as the
source does. -/
def push (tracking : List Str) (collection : Str)
    (fetchItems : Except Err (List SyncItem)) (net : NetworkBehavior)
    (st : PushState) : Except Err (List PushOpResult) × PushState × List Str :=
  if collection.isEmpty then (.error Err.kinveyError, st, tracking)
  else if _pushIsInProgress tracking collection then
    (.error Err.syncError, st, tracking)
  else
    let t1 := _markPushStart tracking collection
    match fetchItems with
    | .error e => (.error e, st, _markPushEnd t1 none)
    | .ok items =>
      let r := _processSyncItems net st items
      (.ok r.2, r.1, _markPushEnd t1 (some collection))

/-- The query built in the delta-set branch of SyncManager.pull: a
contains filter on the id field over the deleted ids. -/
def containsIdQuery (ids : List Str) : QueryM :=
  { filterPred := fun e => decide (e.eid ∈ ids) }

/-- The application of a delta-set response by SyncManager.pull: when
deleted is nonempty, offline-delete the entities whose id occurs in
deleted; when changed is nonempty, offline-upsert the changed entities
and resolve with their count, otherwise resolve with zero. -/
def applyDeltaSetResponse (st : List Entity) (changed deleted : List Entity) :
    List Entity × Nat :=
  let st1 := if 0 < deleted.length then
      (InmemoryOfflineRepository._delete st
        (some (containsIdQuery (deleted.map Entity.eid)))).1
    else st
  if 0 < changed.length then
    (InmemoryOfflineRepository._update st1 changed, changed.length)
  else (st1, 0)

/-- SyncManager._replaceOfflineEntities: with a skip or a limit on the
query only upsert the fetched entities; otherwise delete the entities
matching the query (all of them when there is no query) and then
upsert. -/
def _replaceOfflineEntities (q : Option QueryM) (st : List Entity)
    (networkEntities : List Entity) : List Entity :=
  match q with
  | some q0 =>
    if q0.hasSkip || q0.hasLimit then
      InmemoryOfflineRepository._update st networkEntities
    else
      InmemoryOfflineRepository._update
        (InmemoryOfflineRepository._delete st (some q0)).1 networkEntities
  | none =>
    InmemoryOfflineRepository._update
      (InmemoryOfflineRepository._delete st none).1 networkEntities

/-- The settlement of the network call that _handlePushOp makes for an
operation, given the loaded offline entity and the entity id. -/
def itemNetworkError (net : NetworkBehavior) (op : SyncOp) (e : Entity)
    (entityId : Str) : Option Err :=
  match op with
  | SyncOp.create =>
    match net.createResult e with
    | .ok _ => none
    | .error err => some err
  | SyncOp.update =>
    match net.updateResult e with
    | .ok _ => none
    | .error err => some err
  | SyncOp.delete =>
    match net.deleteResult entityId with
    | .ok _ => none
    | .error err => some err

/-- Modelled from the spec: deleteCachedQuery over the query-cache
module (not among the sources). The cached query record is modelled by
its presence; deleting a present record succeeds and removes it,
deleting an absent record fails with not-found. -/
def deleteCachedQueryM : Option Str → Except Err (Option Str)
  | some _ => .ok none
  | none => .error Err.notFoundError

/-- The delta-set dispatch and catch of SyncManager.pull: with
useDeltaSet, a failure of the delta-set body with InvalidCachedQuery
deletes the cached query, swallowing a not-found error from the
delete, and returns the result of the retried pull without delta-set;
any other error propagates. The delta-set body and the retried pull
are outcome parameters; the second component of the result is the
cached-query record afterwards. -/
def pullDeltaSetDispatch (useDeltaSet : Bool) (deltaBody : Except Err Nat)
    (cachedQuery : Option Str) (regularBody : Except Err Nat) :
    Except Err Nat × Option Str :=
  if useDeltaSet then
    match deltaBody with
    | .ok n => (.ok n, cachedQuery)
    | .error e =>
      if e = Err.invalidCachedQuery then
        match deleteCachedQueryM cachedQuery with
        | .ok cq => (regularBody, cq)
        | .error d =>
          if d = Err.notFoundError then (regularBody, cachedQuery)
          else (.error d, cachedQuery)
      else (.error e, cachedQuery)
  else (regularBody, cachedQuery)

end SyncManager

/-- Possible settlements of the promise returned by
KinveyRequest.execute: fulfilled with a response value, fulfilled with
an error object as the value, or rejected with an error. -/
inductive ExecOutcome where
  | resolvedVal (v : Nat)
  | resolvedErrObj (e : Err)
  | rejected (e : Err)
deriving DecidableEq, Repr

namespace KinveyRequest

/-- KinveyRequest.execute on the retry-eligible path (queue not
paused, the single retry still available): on an InvalidCredentials
failure with an active kinveyAuth session, run the refresh chain; when
it succeeds re-execute once and, when even the retry fails, fulfill
with the original error object; when the refresh chain fails, fulfill
with the original error object, because the catch of the refresh chain
returns the resolved promise of the error; without a session, or for
any other error, reject. -/
def execute (initial : Except Err Nat) (hasSession : Bool)
    (refresh : Except Err Unit) (retryOutcome : Except Err Nat) : ExecOutcome :=
  match initial with
  | .ok v => .resolvedVal v
  | .error e =>
    if e = Err.invalidCredentialsError then
      if hasSession then
        match refresh with
        | .ok _ =>
          match retryOutcome with
          | .ok v => .resolvedVal v
          | .error _ => .resolvedErrObj e
        | .error _ => .resolvedErrObj e
      else .rejected e
    else .rejected e

end KinveyRequest

namespace InmemoryOfflineRepository

/-- Membership in the result of a single keyed insertion: the pair was
already present, or it carries the inserted entity under its id. -/
lemma mem_keyByInsert {m : List (Str × Entity)} {e : Entity} {p : Str × Entity}
    (h : p ∈ keyByInsert m e) : p ∈ m ∨ (p.1 = e.eid ∧ p.2 = e) := by
  unfold keyByInsert at h
  split at h
  · rcases List.mem_map.mp h with ⟨q, hq, hfq⟩
    by_cases hqe : q.1 = e.eid
    · right
      simp [hqe] at hfq
      rw [← hfq]
      exact ⟨hqe.symm ▸ rfl, rfl⟩
    · left
      simp [hqe] at hfq
      exact hfq ▸ hq
  · rcases List.mem_append.mp h with hm | hs
    · exact Or.inl hm
    · right
      rcases List.mem_singleton.mp hs with rfl
      exact ⟨rfl, rfl⟩

/-- A keyed insertion does not disturb key distinctness. -/
lemma nodup_keys_keyByInsert {m : List (Str × Entity)} {e : Entity}
    (h : (m.map Prod.fst).Nodup) : ((keyByInsert m e).map Prod.fst).Nodup := by
  unfold keyByInsert
  split
  · have : (m.map (fun p => if p.1 = e.eid then (p.1, e) else p)).map Prod.fst
        = m.map Prod.fst := by
      rw [List.map_map]
      apply List.map_congr_left
      intro p _
      by_cases hp : p.1 = e.eid <;> simp [hp]
    rw [this]
    exact h
  · next hnone =>
    have hmem : e.eid ∉ m.map Prod.fst := by
      intro hin
      rcases List.mem_map.mp hin with ⟨q, hq, hq1⟩
      exact hnone (List.any_eq_true.mpr ⟨q, hq, by simpa using hq1⟩)
    simp [List.nodup_append, h, hmem]

/-- Every pair of the keyBy map keys an entity of the input under that
entity's own id. -/
lemma mem_keyById {es : List Entity} {p : Str × Entity}
    (h : p ∈ keyById es) : p.1 = p.2.eid ∧ p.2 ∈ es := by
  suffices hgen : ∀ (acc : List (Str × Entity)),
      p ∈ es.foldl keyByInsert acc → (p.1 = p.2.eid ∧ p.2 ∈ es) ∨ p ∈ acc by
    rcases hgen [] h with hok | hacc
    · exact hok
    · simp at hacc
  clear h
  induction es with
  | nil => intro acc h; exact Or.inr h
  | cons e rest ih =>
    intro acc h
    rcases ih (keyByInsert acc e) h with ⟨h1, h2⟩ | hacc
    · exact Or.inl ⟨h1, List.mem_cons_of_mem e h2⟩
    · rcases mem_keyByInsert hacc with hm | ⟨h1, h2⟩
      · exact Or.inr hm
      · exact Or.inl ⟨h2 ▸ h1, h2 ▸ List.mem_cons_self e rest⟩

/-- The keys of the keyBy map are pairwise distinct. -/
lemma nodup_keys_keyById (es : List Entity) :
    ((keyById es).map Prod.fst).Nodup := by
  suffices hgen : ∀ (acc : List (Str × Entity)), (acc.map Prod.fst).Nodup →
      (((es.foldl keyByInsert acc).map Prod.fst)).Nodup by
    exact hgen [] (by simp)
  induction es with
  | nil => intro acc h; exact h
  | cons e rest ih =>
    intro acc h
    exact ih (keyByInsert acc e) (nodup_keys_keyByInsert h)

/-- When the input entities carry pairwise distinct ids, keyBy is the
plain association of each entity with its id, in input order. -/
lemma keyById_eq_of_nodup {es : List Entity}
    (h : (es.map Entity.eid).Nodup) :
    keyById es = es.map (fun e => (e.eid, e)) := by
  suffices hgen : ∀ (acc : List (Str × Entity)),
      (∀ e ∈ es, ∀ p ∈ acc, p.1 ≠ e.eid) →
      es.foldl keyByInsert acc = acc ++ es.map (fun e => (e.eid, e)) by
    simpa using hgen [] (by simp)
  induction es with
  | nil => intro acc _; simp [keyById]
  | cons e rest ih =>
    intro acc hdisj
    have hstep : keyByInsert acc e = acc ++ [(e.eid, e)] := by
      unfold keyByInsert
      have : acc.any (fun p => p.1 = e.eid) = false := by
        simp only [List.any_eq_false]
        intro p hp
        simpa using hdisj e (List.mem_cons_self e rest) p hp
      simp [this]
    have hnodup := h
    simp only [List.map_cons, List.nodup_cons] at hnodup
    have := ih hnodup.2 (acc ++ [(e.eid, e)]) ?_
    · simp only [List.foldl_cons, hstep, this, List.map_cons, List.append_assoc,
        List.singleton_append]
    · intro e1 he1 p hp
      rcases List.mem_append.mp hp with hacc | hs
      · exact hdisj e1 (List.mem_cons_of_mem e he1) p hacc
      · rcases List.mem_singleton.mp hs with rfl
        intro hEq
        apply hnodup.1
        rw [show e.eid = e1.eid from hEq]
        exact List.mem_map_of_mem Entity.eid he1

/-- Filtering one key out of the map does not change lookups of a
different key. -/
lemma find?_filter_ne (m : List (Str × Entity)) {a b : Str} (hab : a ≠ b) :
    (m.filter (fun q => q.1 ≠ b)).find? (fun p => p.1 = a)
      = m.find? (fun p => p.1 = a) := by
  induction m with
  | nil => rfl
  | cons p rest ih =>
    by_cases hpb : p.1 = b
    · have hpa : ¬(p.1 = a) := by rw [hpb]; exact fun hfalse => hab hfalse.symm
      rw [List.filter_cons_of_neg (by simp [hpb]),
        List.find?_cons_of_neg _ (by simp [hpa]), ih]
    · rw [List.filter_cons_of_pos (by simp [hpb])]
      by_cases hpa : p.1 = a
      · rw [List.find?_cons_of_pos _ (by simp [hpa]),
          List.find?_cons_of_pos _ (by simp [hpa])]
      · rw [List.find?_cons_of_neg _ (by simp [hpa]),
          List.find?_cons_of_neg _ (by simp [hpa]), ih]

/-- Full characterization of the replacement loop when the stored
entities carry pairwise distinct ids: each stored entity is replaced in
place by the map value under its id when there is one, and the
unconsumed part of the map keeps the entries whose key matches no
stored entity. -/
lemma updateLoop_eq (st : List Entity) :
    ∀ (m : List (Str × Entity)), (st.map Entity.eid).Nodup →
    updateLoop st m =
      (st.map (fun e =>
        match m.find? (fun p => p.1 = e.eid) with
        | some p => p.2
        | none => e),
       m.filter (fun p => !(st.any (fun e => e.eid = p.1)))) := by
  induction st with
  | nil =>
    intro m _
    simp [updateLoop]
  | cons e rest ih =>
    intro m h
    simp only [List.map_cons, List.nodup_cons] at h
    obtain ⟨he, hrest⟩ := h
    show (match m.find? (fun p => p.1 = e.eid) with
      | some p =>
        let r := updateLoop rest (m.filter (fun q => q.1 ≠ e.eid))
        (p.2 :: r.1, r.2)
      | none =>
        let r := updateLoop rest m
        (e :: r.1, r.2)) = _
    cases hfind : m.find? (fun p => p.1 = e.eid) with
    | none =>
      have hnot : ∀ p ∈ m, ¬(p.1 = e.eid) := by
        intro p hp
        have := List.find?_eq_none.mp hfind p hp
        simpa using this
      rw [ih m hrest]
      refine Prod.ext ?_ ?_
      · simp [hfind]
      · apply List.filter_congr
        intro p hp
        have : ¬(e.eid = p.1) := fun hfalse => hnot p hp hfalse.symm
        simp [this]
    | some p0 =>
      have hp0key : p0.1 = e.eid := by
        have := List.find?_some hfind
        simpa using this
      rw [ih (m.filter (fun q => q.1 ≠ e.eid)) hrest]
      refine Prod.ext ?_ ?_
      · simp only [List.map_cons, hfind]
        refine congrArg₂ _ rfl ?_
        apply List.map_congr_left
        intro e1 he1
        have hne : e1.eid ≠ e.eid := by
          intro hfalse
          exact he (hfalse ▸ List.mem_map_of_mem Entity.eid he1)
        rw [find?_filter_ne m hne]
      · rw [List.filter_filter]
        apply List.filter_congr
        intro p _
        by_cases hpe : p.1 = e.eid
        · simp [hpe]
        · have : ¬(e.eid = p.1) := fun hfalse => hpe hfalse.symm
          simp [hpe, this]

/-- Elements of the rewritten store come from the stored entities or
from the values of the update map. -/
lemma mem_updateLoop_fst {st : List Entity} {m : List (Str × Entity)} {x : Entity}
    (h : x ∈ (updateLoop st m).1) : x ∈ st ∨ ∃ p ∈ m, x = p.2 := by
  induction st generalizing m with
  | nil => simp [updateLoop] at h
  | cons e rest ih =>
    rw [show updateLoop (e :: rest) m = (match m.find? (fun p => p.1 = e.eid) with
      | some p =>
        let r := updateLoop rest (m.filter (fun q => q.1 ≠ e.eid))
        (p.2 :: r.1, r.2)
      | none =>
        let r := updateLoop rest m
        (e :: r.1, r.2)) from rfl] at h
    cases hfind : m.find? (fun p => p.1 = e.eid) with
    | none =>
      rw [hfind] at h
      rcases List.mem_cons.mp h with hx | htail
      · exact Or.inl (by rw [hx]; exact List.mem_cons_self _ _)
      · rcases ih htail with hst | hmap
        · exact Or.inl (List.mem_cons_of_mem e hst)
        · exact Or.inr hmap
    | some p0 =>
      rw [hfind] at h
      rcases List.mem_cons.mp h with hx | htail
      · exact Or.inr ⟨p0, List.mem_of_find?_eq_some hfind, hx⟩
      · rcases ih htail with hst | ⟨p, hp, hx⟩
        · exact Or.inl (List.mem_cons_of_mem e hst)
        · exact Or.inr ⟨p, (List.mem_filter.mp hp).1, hx⟩

/-- The unconsumed part of the map is a subset of the map. -/
lemma mem_updateLoop_snd {st : List Entity} {m : List (Str × Entity)} {p : Str × Entity}
    (h : p ∈ (updateLoop st m).2) : p ∈ m := by
  induction st generalizing m with
  | nil => simpa [updateLoop] using h
  | cons e rest ih =>
    rw [show updateLoop (e :: rest) m = (match m.find? (fun q => q.1 = e.eid) with
      | some q =>
        let r := updateLoop rest (m.filter (fun q => q.1 ≠ e.eid))
        (q.2 :: r.1, r.2)
      | none =>
        let r := updateLoop rest m
        (e :: r.1, r.2)) from rfl] at h
    cases hfind : m.find? (fun q => q.1 = e.eid) with
    | none =>
      rw [hfind] at h
      exact ih h
    | some q0 =>
      rw [hfind] at h
      exact (List.mem_filter.mp (ih h)).1

/-- Two entries of a map with pairwise distinct keys that share a key
are the same entry. -/
lemma eq_of_mem_nodup_keys {m : List (Str × Entity)}
    (h : (m.map Prod.fst).Nodup) {p q : Str × Entity}
    (hp : p ∈ m) (hq : q ∈ m) (hkey : p.1 = q.1) : p = q := by
  induction m with
  | nil => cases hp
  | cons r rest ih =>
    simp only [List.map_cons, List.nodup_cons] at h
    rcases List.mem_cons.mp hp with rfl | hp1
    · rcases List.mem_cons.mp hq with rfl | hq1
      · rfl
      · exact absurd (hkey ▸ List.mem_map_of_mem Prod.fst hq1) h.1
    · rcases List.mem_cons.mp hq with rfl | hq1
      · exact absurd (hkey ▸ List.mem_map_of_mem Prod.fst hp1) (by
          intro hmem
          exact h.1 hmem)
      · exact ih h.2 hp1 hq1

/-- A map entry is carried into the loop output: its value is placed in
the rewritten store or the entry survives in the unconsumed map. -/
lemma mem_updateLoop_of_mem {st : List Entity} {m : List (Str × Entity)}
    (hnodup : (m.map Prod.fst).Nodup) {p : Str × Entity} (hp : p ∈ m) :
    p.2 ∈ (updateLoop st m).1 ∨ p ∈ (updateLoop st m).2 := by
  induction st generalizing m with
  | nil => exact Or.inr hp
  | cons e rest ih =>
    rw [show updateLoop (e :: rest) m = (match m.find? (fun q => q.1 = e.eid) with
      | some q =>
        let r := updateLoop rest (m.filter (fun q => q.1 ≠ e.eid))
        (q.2 :: r.1, r.2)
      | none =>
        let r := updateLoop rest m
        (e :: r.1, r.2)) from rfl]
    cases hfind : m.find? (fun q => q.1 = e.eid) with
    | none =>
      rcases ih hnodup hp with h1 | h2
      · exact Or.inl (List.mem_cons_of_mem _ h1)
      · exact Or.inr h2
    | some q0 =>
      by_cases hkey : p.1 = e.eid
      · have hq0 : q0 ∈ m := List.mem_of_find?_eq_some hfind
        have hq0key : q0.1 = e.eid := by
          have := List.find?_some hfind
          simpa using this
        have : p = q0 := eq_of_mem_nodup_keys hnodup hp hq0 (hkey.trans hq0key.symm)
        exact Or.inl (this ▸ List.mem_cons_self _ _)
      · have hpf : p ∈ m.filter (fun q => q.1 ≠ e.eid) :=
          List.mem_filter.mpr ⟨hp, by simpa using hkey⟩
        have hnodupf : ((m.filter (fun q => q.1 ≠ e.eid)).map Prod.fst).Nodup :=
          (List.Sublist.map Prod.fst (List.filter_sublist m)).nodup hnodup
        rcases ih hnodupf hpf with h1 | h2
        · exact Or.inl (List.mem_cons_of_mem _ h1)
        · exact Or.inr h2

/-- A stored entity whose id keys no map entry survives the loop
unchanged. -/
lemma mem_updateLoop_fst_of_not_key {st : List Entity} {m : List (Str × Entity)}
    {e : Entity} (he : e ∈ st) (hnk : ∀ p ∈ m, p.1 ≠ e.eid) :
    e ∈ (updateLoop st m).1 := by
  induction st generalizing m with
  | nil => cases he
  | cons e0 rest ih =>
    rw [show updateLoop (e0 :: rest) m = (match m.find? (fun q => q.1 = e0.eid) with
      | some q =>
        let r := updateLoop rest (m.filter (fun q => q.1 ≠ e0.eid))
        (q.2 :: r.1, r.2)
      | none =>
        let r := updateLoop rest m
        (e0 :: r.1, r.2)) from rfl]
    rcases List.mem_cons.mp he with rfl | he1
    · have hfind : m.find? (fun q => q.1 = e.eid) = none :=
        List.find?_eq_none.mpr (fun p hp => by simpa using hnk p hp)
      rw [hfind]
      exact List.mem_cons_self _ _
    · cases hfind : m.find? (fun q => q.1 = e0.eid) with
      | none => exact List.mem_cons_of_mem _ (ih he1 hnk)
      | some q0 =>
        refine List.mem_cons_of_mem _ (ih he1 ?_)
        intro p hp
        exact hnk p (List.mem_filter.mp hp).1

/-- Under pairwise-distinct ids on both sides, the upsert replaces each
matched stored entity in place and appends the unmatched input
entities, in input order, at the end. -/
lemma _update_eq (st es : List Entity)
    (hst : (st.map Entity.eid).Nodup) (hes : (es.map Entity.eid).Nodup) :
    _update st es
      = st.map (fun e => (es.find? (fun x => x.eid = e.eid)).getD e)
        ++ es.filter (fun x => !(st.any (fun e => e.eid = x.eid))) := by
  unfold _update
  rw [keyById_eq_of_nodup hes, updateLoop_eq st _ hst]
  refine congrArg₂ _ ?_ ?_
  · apply List.map_congr_left
    intro e _
    have hconv : (es.map (fun x => (x.eid, x))).find? (fun q => q.1 = e.eid)
        = (es.find? (fun x => x.eid = e.eid)).map (fun x => (x.eid, x)) := by
      rw [List.find?_map]
      rfl
    rw [hconv]
    cases hf : es.find? (fun x => x.eid = e.eid) <;> simp
  · have hfm : ((es.map (fun x => (x.eid, x))).filter
        (fun p => !(st.any (fun e => e.eid = p.1))))
        = (es.filter (fun x => !(st.any (fun e => e.eid = x.eid)))).map
            (fun x => (x.eid, x)) := by
      rw [List.filter_map]
      rfl
    rw [hfm, List.map_map]
    exact List.map_id _

/-- The upsert keeps the stored ids pairwise distinct. -/
lemma nodup_update_ids (st es : List Entity)
    (hst : (st.map Entity.eid).Nodup) (hes : (es.map Entity.eid).Nodup) :
    ((_update st es).map Entity.eid).Nodup := by
  rw [_update_eq st es hst hes, List.map_append]
  have h1 : (st.map (fun e => (es.find? (fun x => x.eid = e.eid)).getD e)).map Entity.eid
      = st.map Entity.eid := by
    rw [List.map_map]
    apply List.map_congr_left
    intro e _
    cases hf : es.find? (fun x => x.eid = e.eid) with
    | none => simp [hf]
    | some x =>
      have hx := List.find?_some hf
      simp only [decide_eq_true_eq] at hx
      simp [hf, hx]
  rw [h1]
  have h2 : ((es.filter (fun x => !(st.any (fun e => e.eid = x.eid)))).map Entity.eid).Nodup :=
    (List.Sublist.map Entity.eid (List.filter_sublist es)).nodup hes
  rw [List.nodup_append]
  refine ⟨hst, h2, ?_⟩
  intro a ha hb
  rcases List.mem_map.mp hb with ⟨y, hy, hya⟩
  rcases List.mem_filter.mp hy with ⟨hyes, hcond⟩
  rcases List.mem_map.mp ha with ⟨e0, he0, he0a⟩
  simp only [Bool.not_eq_true', List.any_eq_false, decide_eq_true_eq] at hcond
  exact hcond e0 he0 (he0a.trans hya.symm)

/-- A single _deleteAll call filters the keys by its deletion
condition. -/
lemma _deleteAll_eq_filter (appKey : Str) (keys : List Str) (c : Str) :
    _deleteAll appKey keys c = keys.filter (fun k => !(killsKey appKey c k)) := by
  unfold _deleteAll killsKey
  by_cases hform : _formCollectionKey appKey c = _formCollectionKey appKey activeUserKey
  · rw [if_pos hform]
    have : ∀ k ∈ keys,
        (!(decide (¬(_formCollectionKey appKey c = _formCollectionKey appKey activeUserKey))
          && decide (k = _formCollectionKey appKey c))) = true := by
      intro k _
      simp [hform]
    rw [List.filter_congr (fun k hk => (this k hk).trans (by rfl))]
    simp
  · rw [if_neg hform]
    apply List.filter_congr
    intro k _
    simp [hform]

/-- Folding _deleteAll over a list of collections filters the keys by
the disjunction of the individual deletion conditions. -/
lemma foldl_deleteAll (appKey : Str) (cs : List Str) :
    ∀ keys : List Str,
    cs.foldl (_deleteAll appKey) keys
      = keys.filter (fun k => !(cs.any (fun c => killsKey appKey c k))) := by
  induction cs with
  | nil =>
    intro keys
    simp
  | cons c cs ih =>
    intro keys
    rw [List.foldl_cons, ih, _deleteAll_eq_filter, List.filter_filter]
    apply List.filter_congr
    intro k _
    cases hkill : killsKey appKey c k <;> simp [hkill]

end InmemoryOfflineRepository

/-- C10: with pairwise-distinct stored ids and pairwise-distinct input
ids, InmemoryOfflineRepository.update replaces each stored entity whose
id occurs in the input in place, preserving stored order, appends the
input entities with unmatched ids at the end, resolves with the input
unchanged, and the stored ids stay pairwise distinct. -/
theorem update_upserts_by_id (st es : List Entity)
    (hst : (st.map Entity.eid).Nodup) (hes : (es.map Entity.eid).Nodup) :
    (InmemoryOfflineRepository.update st es).1
      = st.map (fun e => (es.find? (fun x => x.eid = e.eid)).getD e)
        ++ es.filter (fun x => !(st.any (fun e => e.eid = x.eid)))
    ∧ (InmemoryOfflineRepository.update st es).2 = es
    ∧ (((InmemoryOfflineRepository.update st es).1).map Entity.eid).Nodup :=
  ⟨InmemoryOfflineRepository._update_eq st es hst hes, rfl,
    InmemoryOfflineRepository.nodup_update_ids st es hst hes⟩

/-- Witness for update_upserts_by_id at a concrete store and input. -/
theorem update_upserts_by_id_witness :
    (([⟨str "a", 1⟩, ⟨str "b", 2⟩].map Entity.eid).Nodup)
    ∧ (InmemoryOfflineRepository.update [⟨str "a", 1⟩, ⟨str "b", 2⟩]
        [⟨str "b", 20⟩, ⟨str "c", 30⟩]).2 = [⟨str "b", 20⟩, ⟨str "c", 30⟩] :=
  ⟨by decide,
    (update_upserts_by_id [⟨str "a", 1⟩, ⟨str "b", 2⟩] [⟨str "b", 20⟩, ⟨str "c", 30⟩]
      (by decide) (by decide)).2.1⟩

/-- C8: clear with no collection argument deletes exactly the keys
carrying this app's key-dot prefix, preserving the active-user key;
every other key, including keys of an app whose app key merely starts
with this app's key string, is unchanged. -/
theorem clearAll_deletes_exactly_app_keys (appKey : Str) (keys : List Str) :
    InmemoryOfflineRepository.clearAll appKey keys
      = keys.filter (fun k =>
          !((appKey ++ str ".").isPrefixOf k
            && decide (k ≠ appKey ++ str "." ++ InmemoryOfflineRepository.activeUserKey))) := by
  unfold InmemoryOfflineRepository.clearAll
  rw [InmemoryOfflineRepository.foldl_deleteAll]
  apply List.filter_congr
  intro k hk
  refine congrArg (fun b => !b) ?_
  by_cases hact : k = appKey ++ str "." ++ InmemoryOfflineRepository.activeUserKey
  · have hr : (decide (k ≠ appKey ++ str "." ++ InmemoryOfflineRepository.activeUserKey))
        = false := by simp [hact]
    rw [hr, Bool.and_false]
    apply List.any_eq_false.mpr
    intro c _ hkill
    simp only [InmemoryOfflineRepository.killsKey, Bool.and_eq_true,
      decide_eq_true_eq] at hkill
    apply hkill.1
    rw [← hkill.2]
    exact hact
  · by_cases hpre : (appKey ++ str ".") <+: k
    · have hact2 : ¬(k = appKey ++ (str "." ++ InmemoryOfflineRepository.activeUserKey)) := by
        rw [← List.append_assoc]
        exact hact
      have hrhs : ((appKey ++ str ".").isPrefixOf k
          && decide (k ≠ appKey ++ str "." ++ InmemoryOfflineRepository.activeUserKey))
          = true := by
        simp [List.isPrefixOf_iff_prefix, hpre, hact2]
      rw [hrhs]
      apply List.any_eq_true.mpr
      obtain ⟨t, ht⟩ := hpre
      have hform : InmemoryOfflineRepository._formCollectionKey appKey
          (InmemoryOfflineRepository._getCollectionFromKey appKey k) = k := by
        show (appKey ++ str ".") ++ k.drop (appKey ++ str ".").length = k
        rw [← ht, List.drop_left]
      refine ⟨InmemoryOfflineRepository._getCollectionFromKey appKey k, ?_, ?_⟩
      · apply List.mem_map_of_mem
        apply List.mem_filter.mpr
        refine ⟨hk, ?_⟩
        show appKey.isPrefixOf k = true
        rw [List.isPrefixOf_iff_prefix]
        exact (List.prefix_append appKey (str ".")).trans ⟨t, ht⟩
      · show InmemoryOfflineRepository.killsKey appKey
          (InmemoryOfflineRepository._getCollectionFromKey appKey k) k = true
        unfold InmemoryOfflineRepository.killsKey
        rw [hform]
        simp only [Bool.and_eq_true, decide_eq_true_eq]
        exact ⟨fun hf => hact hf, trivial⟩
    · have hpf : (appKey ++ str ".").isPrefixOf k = false := by
        rw [Bool.eq_false_iff]
        simpa [List.isPrefixOf_iff_prefix] using hpre
      rw [hpf, Bool.false_and]
      apply List.any_eq_false.mpr
      intro c _ hkill
      simp only [InmemoryOfflineRepository.killsKey, Bool.and_eq_true,
        decide_eq_true_eq] at hkill
      apply hpre
      rw [hkill.2]
      exact List.prefix_append (appKey ++ str ".") c

namespace CoreUtils

/-- The page limits of a paginated query sum to the total count. -/
lemma sum_min_pages (p : Nat) (hp : 0 < p) :
    ∀ K n : Nat, (n + p - 1) / p = K →
    ((List.range K).map (fun i => min (n - i * p) p)).sum = n := by
  intro K
  induction K with
  | zero =>
    intro n h
    have hn : n = 0 := by
      have hlt : n + p - 1 < p := by
        by_contra hge
        have := Nat.div_le_div_right (c := p) (Nat.le_of_not_lt hge)
        rw [Nat.div_self hp, h] at this
        omega
      omega
    subst hn
    simp
  | succ K ih =>
    intro n h
    have hn1 : 1 ≤ n := by
      by_contra hn0
      have hz : n = 0 := by omega
      subst hz
      rw [Nat.zero_add, Nat.div_eq_of_lt (by omega)] at h
      omega
    rw [List.range_succ_eq_map, List.map_cons, List.map_map, List.sum_cons]
    have hshift : ((List.range K).map ((fun i => min (n - i * p) p) ∘ Nat.succ))
        = (List.range K).map (fun i => min ((n - p) - i * p) p) := by
      apply List.map_congr_left
      intro i _
      show min (n - (i + 1) * p) p = min ((n - p) - i * p) p
      have harith : n - (i + 1) * p = (n - p) - i * p := by
        rw [Nat.succ_mul, Nat.add_comm, ← Nat.sub_sub]
      rw [harith]
    rw [hshift]
    rcases le_or_lt n p with hle | hlt
    · have hK : K = 0 := by
        have h2 : n + p - 1 < 2 * p := by omega
        have h3 : (n + p - 1) / p < 2 := by
          rw [Nat.div_lt_iff_lt_mul hp]
          omega
        omega
      subst hK
      simp [Nat.min_eq_left hle]
    · have hsub : (n - p + p - 1) / p = K := by
        have h2 : n + p - 1 = (n - 1) + p := by omega
        rw [h2, Nat.add_div_right _ hp] at h
        have h3 : n - p + p - 1 = n - 1 := by omega
        rw [h3]
        omega
      rw [ih (n - p) hsub]
      show min (n - 0 * p) p + (n - p) = n
      have hmin : min (n - 0 * p) p = p := by
        have hle2 : p ≤ n - 0 * p := by simpa using le_of_lt hlt
        exact Nat.min_eq_right hle2
      rw [hmin]
      omega

/-- A page that is not the last one is full. -/
lemma limit_full_of_lt (p : Nat) (hp : 0 < p) (n i : Nat)
    (h : i + 1 < (n + p - 1) / p) :
    min (n - i * p) p = p := by
  have hKp : ((n + p - 1) / p) * p ≤ n + p - 1 := Nat.div_mul_le_self _ _
  have h2 : (i + 2) * p ≤ ((n + p - 1) / p) * p :=
    Nat.mul_le_mul_right p (by omega)
  have h3 : (i + 2) * p = i * p + 2 * p := by ring
  rw [h3] at h2
  apply Nat.min_eq_right
  generalize hA : i * p = a at h2 ⊢
  generalize hB : ((n + p - 1) / p) * p = b at h2 hKp
  omega

end CoreUtils

/-- C9: for a query with skip s, a positive page size p and a total
count n, splitQueryIntoPages returns exactly the ceiling of n over p
page queries; the i-th page query has skip s plus i pages and limit
the remainder of n capped at p, the page limits sum to n, and each
page starts exactly where the previous page ends. -/
theorem splitQueryIntoPages_paginates (q : QueryM) (s p n : Nat)
    (hp : 0 < p) (hs : q.skip = some s) :
    (CoreUtils.splitQueryIntoPages q p n).length = (n + p - 1) / p
    ∧ (∀ i, ∀ h : i < (CoreUtils.splitQueryIntoPages q p n).length,
        ((CoreUtils.splitQueryIntoPages q p n).get ⟨i, h⟩).skip = some (s + i * p)
        ∧ ((CoreUtils.splitQueryIntoPages q p n).get ⟨i, h⟩).limit
            = some (min (n - i * p) p))
    ∧ ((CoreUtils.splitQueryIntoPages q p n).map (fun pq => pq.limit.getD 0)).sum = n
    ∧ (∀ i, ∀ h : i + 1 < (CoreUtils.splitQueryIntoPages q p n).length,
        ((CoreUtils.splitQueryIntoPages q p n).get ⟨i + 1, h⟩).skip
          = some ((((CoreUtils.splitQueryIntoPages q p n).get
                ⟨i, Nat.lt_of_succ_lt h⟩).skip.getD 0)
              + (((CoreUtils.splitQueryIntoPages q p n).get
                ⟨i, Nat.lt_of_succ_lt h⟩).limit.getD 0))) := by
  have hlen : (CoreUtils.splitQueryIntoPages q p n).length = (n + p - 1) / p := by
    simp [CoreUtils.splitQueryIntoPages]
  have hget : ∀ i, ∀ h : i < (CoreUtils.splitQueryIntoPages q p n).length,
      ((CoreUtils.splitQueryIntoPages q p n).get ⟨i, h⟩).skip = some (s + i * p)
      ∧ ((CoreUtils.splitQueryIntoPages q p n).get ⟨i, h⟩).limit
          = some (min (n - i * p) p) := by
    intro i h
    constructor
    · simp [CoreUtils.splitQueryIntoPages, List.get_eq_getElem, hs]
    · simp [CoreUtils.splitQueryIntoPages, List.get_eq_getElem]
  refine ⟨hlen, hget, ?_, ?_⟩
  · have hmaps : (CoreUtils.splitQueryIntoPages q p n).map (fun pq => pq.limit.getD 0)
        = (List.range ((n + p - 1) / p)).map (fun i => min (n - i * p) p) := by
      simp [CoreUtils.splitQueryIntoPages, List.map_map]
    rw [hmaps]
    exact CoreUtils.sum_min_pages p hp _ n rfl
  · intro i h
    have hi : i < (CoreUtils.splitQueryIntoPages q p n).length := Nat.lt_of_succ_lt h
    rw [(hget (i + 1) h).1, (hget i hi).1, (hget i hi).2]
    have hfull : min (n - i * p) p = p := by
      apply CoreUtils.limit_full_of_lt p hp n i
      rw [← hlen]
      exact h
    rw [hfull]
    simp only [Option.getD_some]
    have : (i + 1) * p = i * p + p := by ring
    rw [this, Nat.add_assoc]

/-- Witness for splitQueryIntoPages_paginates: page size two over five
entities yields limits summing to five. -/
theorem splitQueryIntoPages_paginates_witness :
    (0 < 2) ∧ ((CoreUtils.splitQueryIntoPages { skip := some 3 } 2 5).map
        (fun pq => pq.limit.getD 0)).sum = 5 :=
  ⟨by decide,
    (splitQueryIntoPages_paginates { skip := some 3 } 3 2 5 (by decide) rfl).2.2.1⟩

/-- C1: the source clears the push marker only on the success path; on
the rejection path _markPushEnd is called with no argument, so the
collection's marker stays set and a subsequent push for the same
collection is rejected as already in progress. This theorem evaluates
push at a failing input: the sync-item fetch rejects with the
not-found error, the marker for the collection survives, and the next
push for it rejects with the sync error. -/
theorem push_marker_leaks_on_rejection :
    (SyncManager.push [] (str "books") (.error Err.notFoundError) noNetwork
        ⟨[], []⟩).2.2 = [str "books"]
    ∧ (SyncManager.push [str "books"] (str "books") (.ok []) noNetwork
        ⟨[], []⟩).1 = .error Err.syncError := by
  constructor <;> rfl

/-- C2: while the marker of a collection is set, push for that
collection rejects with the sync error, processing no sync items and
leaving the state and the tracking untouched; push for a different
valid, unmarked collection is not rejected by this rule and processes
its items. -/
theorem push_mutual_exclusion_per_collection
    (tracking : List Str) (c c2 : Str)
    (fetch fetch2 : Except Err (List SyncItem)) (net net2 : NetworkBehavior)
    (st st2 : PushState) (items : List SyncItem)
    (hcne : ¬(c.isEmpty = true)) (hc : c ∈ tracking)
    (hc2ne : ¬(c2.isEmpty = true)) (hc2 : c2 ∉ tracking)
    (hfetch2 : fetch2 = .ok items) :
    SyncManager.push tracking c fetch net st = (.error Err.syncError, st, tracking)
    ∧ SyncManager.push tracking c2 fetch2 net2 st2
        = (.ok (SyncManager._processSyncItems net2 st2 items).2,
           (SyncManager._processSyncItems net2 st2 items).1,
           SyncManager._markPushEnd (SyncManager._markPushStart tracking c2)
             (some c2)) := by
  constructor
  · unfold SyncManager.push
    rw [if_neg hcne, if_pos (by simp [SyncManager._pushIsInProgress, hc])]
  · unfold SyncManager.push
    rw [if_neg hc2ne, if_neg (by simp [SyncManager._pushIsInProgress, hc2]), hfetch2]

/-- Witness for push_mutual_exclusion_per_collection at concrete
collections and tracking state. -/
theorem push_mutual_exclusion_per_collection_witness :
    ((str "books") ∈ [str "books"])
    ∧ SyncManager.push [str "books"] (str "books") (.ok []) noNetwork ⟨[], []⟩
        = (.error Err.syncError, (⟨[], []⟩ : PushState), [str "books"]) :=
  ⟨by decide,
    (push_mutual_exclusion_per_collection [str "books"] (str "books") (str "cds")
      (.ok []) (.ok []) noNetwork noNetwork ⟨[], []⟩ ⟨[], []⟩ []
      (by decide) (by decide) (by decide) (by decide) rfl).1⟩

/-- C7: when the initial execution fails with InvalidCredentials, an
active kinveyAuth session exists, and the refresh chain itself fails,
the promise returned by execute fulfills with the original
InvalidCredentials error object as its value instead of rejecting,
because the catch of the refresh chain returns the resolved promise of
the original error. -/
theorem execute_resolves_error_on_failed_refresh :
    KinveyRequest.execute (.error Err.invalidCredentialsError) true
        (.error Err.serverError) (.ok 0)
      = ExecOutcome.resolvedErrObj Err.invalidCredentialsError := by rfl

/-- C4: under useDeltaSet, a delta-set failure with InvalidCachedQuery
deletes the cached query record, a not-found error while deleting
being ignored, and the pull settles exactly as the retried pull
without delta-set does; a delta-set failure with any other error
propagates unchanged to the caller. -/
theorem pull_invalid_cached_query_falls_back (cq : Option Str)
    (deltaBody regularBody : Except Err Nat)
    (hfail : deltaBody = .error Err.invalidCachedQuery) :
    SyncManager.pullDeltaSetDispatch true deltaBody cq regularBody = (regularBody, none)
    ∧ (∀ e2, e2 ≠ Err.invalidCachedQuery →
        SyncManager.pullDeltaSetDispatch true (.error e2) cq regularBody
          = (.error e2, cq)) := by
  constructor
  · cases cq <;>
      simp [SyncManager.pullDeltaSetDispatch, SyncManager.deleteCachedQueryM, hfail]
  · intro e2 he2
    simp [SyncManager.pullDeltaSetDispatch, he2]

/-- Witness for pull_invalid_cached_query_falls_back: a present cached
query record, a rejected delta set and a fallback resolving with two
entities. -/
theorem pull_invalid_cached_query_falls_back_witness :
    ((Except.error Err.invalidCachedQuery : Except Err Nat)
        = .error Err.invalidCachedQuery)
    ∧ SyncManager.pullDeltaSetDispatch true (.error Err.invalidCachedQuery)
        (some (str "t1")) (.ok 2) = (.ok 2, none) :=
  ⟨rfl,
    (pull_invalid_cached_query_falls_back (some (str "t1"))
      (.error Err.invalidCachedQuery) (.ok 2) rfl).1⟩

namespace SyncManager

/-- The processed batch grows by exactly one result per item. -/
lemma _processSyncItems_go_length (net : NetworkBehavior) (items : List SyncItem) :
    ∀ (st0 : PushState) (acc : List PushOpResult),
    ((items.foldl (fun acc item =>
        let r := _processSyncItem net acc.1 item
        (r.1, acc.2 ++ [r.2])) (st0, acc)).2).length = acc.length + items.length := by
  induction items with
  | nil =>
    intro st0 acc
    simp
  | cons it rest ih =>
    intro st0 acc
    rw [List.foldl_cons]
    have h := ih (_processSyncItem net st0 it).1 (acc ++ [(_processSyncItem net st0 it).2])
    simp only [List.length_append, List.length_cons, List.length_nil] at h
    rw [h]
    simp only [List.length_cons]
    omega

/-- One result per attempted sync item: the batch never rejects and
its results list has exactly one entry per item. -/
lemma _processSyncItems_length (net : NetworkBehavior) (st0 : PushState)
    (items : List SyncItem) :
    ((_processSyncItems net st0 items).2).length = items.length := by
  have h := _processSyncItems_go_length net items st0 []
  simpa [_processSyncItems] using h

/-- Per-item behavior when the offline entity is present: the result
record names the item's id and operation; a network failure is
attached to the result and the sync item is kept; a network success
leaves no error and removes the sync item. -/
lemma _processSyncItem_cases (net : NetworkBehavior) (st : PushState) (item : SyncItem)
    (e : Entity)
    (hfound : st.offline.find? (fun x => x.eid = item.entityId) = some e) :
    ((_processSyncItem net st item).2.rid = item.entityId
      ∧ (_processSyncItem net st item).2.operation = item.op)
    ∧ (∀ err, itemNetworkError net item.op e item.entityId = some err →
        (_processSyncItem net st item).2.error = some err
        ∧ (_processSyncItem net st item).1.syncItems = st.syncItems)
    ∧ (itemNetworkError net item.op e item.entityId = none →
        (_processSyncItem net st item).2.error = none
        ∧ (_processSyncItem net st item).1.syncItems
            = removeSyncItemForEntityId st.syncItems item.collection item.entityId) := by
  have heid : e.eid = item.entityId := by
    have := List.find?_some hfound
    simpa using this
  cases hop : item.op with
  | create =>
    cases hnet : net.createResult e with
    | ok created =>
      simp [_processSyncItem, _pushItem, hfound, hop, _pushCreate, hnet,
        _getPushOpResult, itemNetworkError, heid]
    | error err2 =>
      simp [_processSyncItem, _pushItem, hfound, hop, _pushCreate, hnet,
        _getPushOpResult, itemNetworkError, heid]
  | update =>
    cases hnet : net.updateResult e with
    | ok updated =>
      simp [_processSyncItem, _pushItem, hfound, hop, _pushUpdate, hnet,
        _getPushOpResult, itemNetworkError, heid]
    | error err2 =>
      simp [_processSyncItem, _pushItem, hfound, hop, _pushUpdate, hnet,
        _getPushOpResult, itemNetworkError, heid]
  | delete =>
    cases hnet : net.deleteResult item.entityId with
    | ok u =>
      simp [_processSyncItem, _pushItem, hfound, hop, _pushDelete, hnet,
        _getPushOpResult, itemNetworkError, heid]
    | error err2 =>
      simp [_processSyncItem, _pushItem, hfound, hop, _pushDelete, hnet,
        _getPushOpResult, itemNetworkError, heid]

/-- Per-item behavior when the offline entity is missing for a
non-delete operation: the sync item is removed and the not-found
error is attached to the item's result. -/
lemma _processSyncItem_missing (net : NetworkBehavior) (st1 : PushState)
    (item1 : SyncItem)
    (hnone : st1.offline.find? (fun x => x.eid = item1.entityId) = none)
    (hne : item1.op ≠ SyncOp.delete) :
    (_processSyncItem net st1 item1).2.error = some Err.notFoundError
    ∧ (_processSyncItem net st1 item1).1.syncItems
        = removeSyncItemForEntityId st1.syncItems item1.collection item1.entityId := by
  cases hop : item1.op with
  | delete => exact absurd hop hne
  | create =>
    simp [_processSyncItem, _pushItem, hnone, hop, _getPushOpResult]
  | update =>
    simp [_processSyncItem, _pushItem, hnone, hop, _getPushOpResult]

end SyncManager

/-- C5 counterexample: a per-item failure whose SyncItem is removed.
With an empty offline store and a pending create for an entity id, the
item's result carries the not-found error, yet its SyncItem is dropped
from the sync state, contradicting the claim that a failing item's
SyncItem is never removed. -/
theorem push_item_failure_removing_sync_item :
    (SyncManager._processSyncItem noNetwork
        ⟨[], [⟨str "x", str "books", SyncOp.create⟩]⟩
        ⟨str "x", str "books", SyncOp.create⟩).2.error = some Err.notFoundError
    ∧ (SyncManager._processSyncItem noNetwork
        ⟨[], [⟨str "x", str "books", SyncOp.create⟩]⟩
        ⟨str "x", str "books", SyncOp.create⟩).1.syncItems = [] := by
  constructor <;> rfl

/-- C5 amended: processing a batch never rejects and yields one result
per attempted sync item; each item's result names the item's id and
operation; when the offline entity is present, a network failure is
captured on the result and the failing item's SyncItem is kept, while
a network success leaves no error and removes the SyncItem; when the
offline entity is missing for a non-delete operation, the not-found
error is captured on the result and that item's SyncItem is
dropped. -/
theorem push_failures_captured_per_item
    (net : NetworkBehavior) (st : PushState) (item : SyncItem) (e : Entity)
    (hfound : st.offline.find? (fun x => x.eid = item.entityId) = some e) :
    (∀ (items : List SyncItem) (st0 : PushState),
        ((SyncManager._processSyncItems net st0 items).2).length = items.length)
    ∧ ((SyncManager._processSyncItem net st item).2.rid = item.entityId
        ∧ (SyncManager._processSyncItem net st item).2.operation = item.op)
    ∧ (∀ err, SyncManager.itemNetworkError net item.op e item.entityId = some err →
        (SyncManager._processSyncItem net st item).2.error = some err
        ∧ (SyncManager._processSyncItem net st item).1.syncItems = st.syncItems)
    ∧ (SyncManager.itemNetworkError net item.op e item.entityId = none →
        (SyncManager._processSyncItem net st item).2.error = none
        ∧ (SyncManager._processSyncItem net st item).1.syncItems
            = SyncManager.removeSyncItemForEntityId st.syncItems item.collection
                item.entityId)
    ∧ (∀ (st1 : PushState) (item1 : SyncItem),
        st1.offline.find? (fun x => x.eid = item1.entityId) = none →
        item1.op ≠ SyncOp.delete →
        (SyncManager._processSyncItem net st1 item1).2.error = some Err.notFoundError
        ∧ (SyncManager._processSyncItem net st1 item1).1.syncItems
            = SyncManager.removeSyncItemForEntityId st1.syncItems item1.collection
                item1.entityId) := by
  have hcases := SyncManager._processSyncItem_cases net st item e hfound
  exact ⟨fun items st0 => SyncManager._processSyncItems_length net st0 items,
    hcases.1, hcases.2.1, hcases.2.2,
    fun st1 item1 hnone hne => SyncManager._processSyncItem_missing net st1 item1 hnone hne⟩

/-- Witness for push_failures_captured_per_item: a pending update whose
network call fails keeps its SyncItem and carries the error. -/
theorem push_failures_captured_per_item_witness :
    (([⟨str "x", 7⟩] : List Entity).find? (fun x => x.eid = str "x")
        = some ⟨str "x", 7⟩)
    ∧ ((SyncManager._processSyncItem noNetwork
        ⟨[⟨str "x", 7⟩], [⟨str "x", str "books", SyncOp.update⟩]⟩
        ⟨str "x", str "books", SyncOp.update⟩).2.error = some Err.serverError
      ∧ (SyncManager._processSyncItem noNetwork
        ⟨[⟨str "x", 7⟩], [⟨str "x", str "books", SyncOp.update⟩]⟩
        ⟨str "x", str "books", SyncOp.update⟩).1.syncItems
          = [⟨str "x", str "books", SyncOp.update⟩]) :=
  ⟨by decide, by
    have h := (push_failures_captured_per_item noNetwork
      ⟨[⟨str "x", 7⟩], [⟨str "x", str "books", SyncOp.update⟩]⟩
      ⟨str "x", str "books", SyncOp.update⟩ ⟨str "x", 7⟩ (by decide)).2.2.1
        Err.serverError rfl
    exact h⟩

namespace InmemoryOfflineRepository

/-- Every entity of the upsert result comes from the store or from the
input. -/
lemma mem_update_sources {st es : List Entity} {x : Entity}
    (h : x ∈ _update st es) : x ∈ st ∨ x ∈ es := by
  unfold _update at h
  rcases List.mem_append.mp h with h1 | h2
  · rcases mem_updateLoop_fst h1 with hst | ⟨p, hp, hx⟩
    · exact Or.inl hst
    · refine Or.inr ?_
      rw [hx]
      exact (mem_keyById hp).2
  · rcases List.mem_map.mp h2 with ⟨p, hp, hx⟩
    refine Or.inr ?_
    rw [← hx]
    exact (mem_keyById (mem_updateLoop_snd hp)).2

/-- With pairwise distinct input ids, every input entity appears in the
upsert result. -/
lemma mem_update_of_mem_input {st es : List Entity}
    (hes : (es.map Entity.eid).Nodup) {c : Entity} (hc : c ∈ es) :
    c ∈ _update st es := by
  unfold _update
  have hpair : (c.eid, c) ∈ keyById es := by
    rw [keyById_eq_of_nodup hes]
    exact List.mem_map_of_mem _ hc
  have hnodup := nodup_keys_keyById es
  rcases mem_updateLoop_of_mem hnodup hpair with h1 | h2
  · exact List.mem_append_left _ h1
  · exact List.mem_append_right _ (List.mem_map.mpr ⟨(c.eid, c), h2, rfl⟩)

/-- A stored entity whose id matches no input entity survives the
upsert unchanged. -/
lemma mem_update_of_not_in_input {st es : List Entity} {e : Entity}
    (he : e ∈ st) (hx : ∀ x ∈ es, x.eid ≠ e.eid) : e ∈ _update st es := by
  unfold _update
  apply List.mem_append_left
  apply mem_updateLoop_fst_of_not_key he
  intro p hp
  have h := mem_keyById hp
  intro hfalse
  exact hx p.2 h.2 (by rw [← h.1]; exact hfalse)

end InmemoryOfflineRepository

/-- C3: applying a delta-set response resolves with the number of
changed entities; no surviving offline entity carries an id listed in
deleted unless it is one of the changed entities, and every changed
entity is upserted into the offline store. -/
theorem pull_delta_set_applies_response (st changed deleted : List Entity)
    (hch : (changed.map Entity.eid).Nodup) :
    (SyncManager.applyDeltaSetResponse st changed deleted).2 = changed.length
    ∧ (∀ x ∈ (SyncManager.applyDeltaSetResponse st changed deleted).1,
        x.eid ∈ deleted.map Entity.eid → x ∈ changed)
    ∧ (∀ c ∈ changed, c ∈ (SyncManager.applyDeltaSetResponse st changed deleted).1) := by
  have hst1 : ∀ x, x ∈ (if 0 < deleted.length then
      (InmemoryOfflineRepository._delete st
        (some (SyncManager.containsIdQuery (deleted.map Entity.eid)))).1
    else st) → x.eid ∈ deleted.map Entity.eid → False := by
    intro x hx hdel
    have hpos : 0 < deleted.length := by
      rcases List.mem_map.mp hdel with ⟨d, hd, _⟩
      cases deleted with
      | nil => cases hd
      | cons a l => simp
    rw [if_pos hpos] at hx
    unfold InmemoryOfflineRepository._delete at hx
    rcases List.mem_filter.mp hx with ⟨hxst, hcond⟩
    simp only [Bool.not_eq_true', List.any_eq_false, decide_eq_true_eq] at hcond
    apply hcond x ?_ rfl
    unfold InmemoryOfflineRepository.applyQueryToDataset SyncManager.containsIdQuery
    simp only [Option.getD_none, List.drop_zero]
    exact List.mem_filter.mpr ⟨hxst, by simpa using hdel⟩
  refine ⟨?_, ?_, ?_⟩
  · unfold SyncManager.applyDeltaSetResponse
    by_cases hc : 0 < changed.length
    · simp [hc]
    · have : changed.length = 0 := by omega
      simp [hc, this]
  · intro x hx hdel
    unfold SyncManager.applyDeltaSetResponse at hx
    by_cases hc : 0 < changed.length
    · rw [if_pos hc] at hx
      rcases InmemoryOfflineRepository.mem_update_sources hx with h1 | h2
      · exact absurd hdel (fun hd => hst1 x h1 hd)
      · exact h2
    · rw [if_neg hc] at hx
      exact absurd hdel (fun hd => hst1 x hx hd)
  · intro c hc
    have hpos : 0 < changed.length := by
      cases changed with
      | nil => cases hc
      | cons a l => simp
    unfold SyncManager.applyDeltaSetResponse
    rw [if_pos hpos]
    exact InmemoryOfflineRepository.mem_update_of_mem_input hch hc

/-- Witness for pull_delta_set_applies_response at a concrete store and
response. -/
theorem pull_delta_set_applies_response_witness :
    (([⟨str "3", 30⟩] : List Entity).map Entity.eid).Nodup
    ∧ (SyncManager.applyDeltaSetResponse
        [⟨str "1", 1⟩, ⟨str "2", 2⟩] [⟨str "3", 30⟩] [⟨str "2", 0⟩]).2 = 1 :=
  ⟨by decide,
    (pull_delta_set_applies_response [⟨str "1", 1⟩, ⟨str "2", 2⟩]
      [⟨str "3", 30⟩] [⟨str "2", 0⟩] (by decide)).1⟩

/-- C6: a regular pull whose query has a skip or a limit only upserts
the fetched entities: the store is rewritten by the plain upsert and
every offline entity not returned by the pull survives; only a query
with neither skip nor limit deletes the entities matching it before
the upsert. -/
theorem replace_offline_entities_bounded_is_nondestructive
    (q : QueryM) (st networkEntities : List Entity) :
    ((q.hasSkip = true ∨ q.hasLimit = true) →
      SyncManager._replaceOfflineEntities (some q) st networkEntities
        = InmemoryOfflineRepository._update st networkEntities
      ∧ (∀ e ∈ st, (∀ x ∈ networkEntities, x.eid ≠ e.eid) →
          e ∈ SyncManager._replaceOfflineEntities (some q) st networkEntities))
    ∧ (q.hasSkip = false → q.hasLimit = false →
        SyncManager._replaceOfflineEntities (some q) st networkEntities
          = InmemoryOfflineRepository._update
              (InmemoryOfflineRepository._delete st (some q)).1 networkEntities) := by
  constructor
  · intro hor
    have hcond : (q.hasSkip || q.hasLimit) = true := by
      rcases hor with h | h <;> simp [h]
    have heq : SyncManager._replaceOfflineEntities (some q) st networkEntities
        = InmemoryOfflineRepository._update st networkEntities := by
      show (if (q.hasSkip || q.hasLimit) = true then
          InmemoryOfflineRepository._update st networkEntities
        else InmemoryOfflineRepository._update
          (InmemoryOfflineRepository._delete st (some q)).1 networkEntities)
        = InmemoryOfflineRepository._update st networkEntities
      rw [if_pos hcond]
    refine ⟨heq, ?_⟩
    intro e he hx
    rw [heq]
    exact InmemoryOfflineRepository.mem_update_of_not_in_input he hx
  · intro h1 h2
    show (if (q.hasSkip || q.hasLimit) = true then
        InmemoryOfflineRepository._update st networkEntities
      else InmemoryOfflineRepository._update
        (InmemoryOfflineRepository._delete st (some q)).1 networkEntities)
      = InmemoryOfflineRepository._update
          (InmemoryOfflineRepository._delete st (some q)).1 networkEntities
    rw [if_neg (by simp [h1, h2])]

/-- Witness for replace_offline_entities_bounded_is_nondestructive: a
limited query leaves an entity outside the fetched window in place. -/
theorem replace_offline_entities_bounded_witness :
    ((QueryM.hasSkip { limit := some 1 } = true
      ∨ QueryM.hasLimit { limit := some 1 } = true))
    ∧ SyncManager._replaceOfflineEntities (some { limit := some 1 })
        [⟨str "a", 1⟩] [⟨str "b", 2⟩]
        = InmemoryOfflineRepository._update [⟨str "a", 1⟩] [⟨str "b", 2⟩] :=
  ⟨Or.inr rfl,
    ((replace_offline_entities_bounded_is_nondestructive { limit := some 1 }
      [⟨str "a", 1⟩] [⟨str "b", 2⟩]).1 (Or.inr rfl)).1⟩
